import Mathlib

/-!
Verification of the dependency-resolution and multi-workspace orchestration
engine of the tfe-ephemeral action.

The embedding follows the TypeScript source:
* `src/dependency-resolver.ts` — `resolveExecutionOrder`, `topologicalSort`
  (depth-first traversal with `visiting` / `visited` sets) and
  `validateDependencies`;
* `workspace-manager.ts` — the four strategies (`createWorkspaces`,
  `deleteWorkspaces`, `applyWorkspaces`, `destroyWorkspaces`), their
  per-workspace operations, and the `execute` facade;
* `tfe-client.ts` — `waitForRun`, the polling loop over run statuses.

A TypeScript object with string keys is modelled as an association list in
insertion order (`Object.keys` / `Object.entries` enumerate insertion order);
thrown exceptions become `Except` errors; the remote API is an oracle record
(`TFEClient`) whose fields give the outcome of each HTTP call, with the
successive run-status polls of one run modelled as a function of the poll
index.  The recursive `visit` of `topologicalSort` takes a fuel argument
(`.outOfGas` below); fuel `ws.length + 1` is proved sufficient
(`topologicalSort_no_gas`), so the extra error case is unreachable and the
embedding agrees with the source on every input.
-/

/-- Action selector, `src/types.ts` `ActionType`. -/
inductive ActionType where
  | create
  | delete
  | apply
  | destroy
deriving DecidableEq, Repr

/-- VCS configuration for a workspace, `src/types.ts` `VCSConfig`. -/
structure VCSConfig where
  repository : String
  branch : Option String
  oauthTokenId : String
deriving DecidableEq, Repr

/-- Per-workspace configuration, `src/types.ts` `WorkspaceConfig`.
`vars` is the source's `variables` field (`variables` is a reserved word
in Lean); values are already rendered to strings (the client calls
`String(value)` on each). -/
structure WorkspaceConfig where
  vcs : Option VCSConfig := none
  vars : Option (List (String × String)) := none
  autoApply : Option Bool := none
  terraformVersion : Option String := none
  executionMode : Option String := none
  variableSetId : Option String := none
  dependsOn : Option (List String) := none
deriving DecidableEq, Repr

/-- The parsed configuration, `src/types.ts` `TFEConfig`.  The `workspaces`
object is an association list in insertion order. -/
structure TFEConfig where
  action : ActionType
  workspaces : List (String × WorkspaceConfig)
deriving DecidableEq, Repr

/-- `Object.keys(config.workspaces)`. -/
def workspaceNames (ws : List (String × WorkspaceConfig)) : List String :=
  ws.map Prod.fst

/-- `workspaces[name]?.dependsOn || []` — the declared dependencies of a
name, empty for a missing workspace or a missing `dependsOn` field. -/
def getDeps (ws : List (String × WorkspaceConfig)) (name : String) : List String :=
  match ws.lookup name with
  | some c => c.dependsOn.getD []
  | none => []

/-- The dependency relation: `depEdge ws a b` holds when `a` declares `b`
among its dependencies. -/
def depEdge (ws : List (String × WorkspaceConfig)) (a b : String) : Prop :=
  b ∈ getDeps ws a

instance (ws : List (String × WorkspaceConfig)) (a b : String) :
    Decidable (depEdge ws a b) := by
  unfold depEdge; infer_instance

/-- Errors thrown by the resolver and validator (`throw new Error(...)` in
the source).  `outOfGas` is the fuel-exhaustion marker of the embedding,
proved unreachable below.  `wrapped` models the re-thrown
`Dependency validation failed: ...` error of `validateDependencies`. -/
inductive ResolveError where
  | cycle (path : List String)
  | unknownDep (name dep : String)
  | unknownDepConfig (name dep : String)
  | selfDep (name : String)
  | outOfGas
  | wrapped (e : ResolveError)
deriving DecidableEq, Repr

/-- The mutable state of `topologicalSort`: the output list and the two
colour sets. -/
structure TopoState where
  sorted : List String
  visited : List String
  visiting : List String
deriving DecidableEq, Repr

/-- The `for (const dep of dependencies)` loop inside `visit`: check that
each dependency is defined, then recurse into it (the recursive call is the
`visitF` parameter). -/
def visitList (ws : List (String × WorkspaceConfig))
    (visitF : String → TopoState → Except ResolveError TopoState)
    (name : String) :
    List String → TopoState → Except ResolveError TopoState
  | [], s => .ok s
  | dep :: rest, s =>
    if (ws.lookup dep).isNone then
      .error (.unknownDep name dep)
    else
      match visitF dep s with
      | .error e => .error e
      | .ok s' => visitList ws visitF name rest s'

/-- The recursive `visit(name, path)` of `topologicalSort`, with fuel. -/
def visit (ws : List (String × WorkspaceConfig)) :
    Nat → String → List String → TopoState → Except ResolveError TopoState
  | 0, _, _, _ => .error .outOfGas
  | fuel + 1, name, path, s =>
    if name ∈ s.visiting then
      .error (.cycle (path ++ [name]))
    else if name ∈ s.visited then
      .ok s
    else
      match visitList ws (fun d st => visit ws fuel d (path ++ [name]) st)
          name (getDeps ws name)
          { s with visiting := name :: s.visiting } with
      | .error e => .error e
      | .ok s2 =>
        .ok { sorted := s2.sorted ++ [name],
              visited := name :: s2.visited,
              visiting := s2.visiting.erase name }

/-- Fuel for one outer `visit` call; proved sufficient below. -/
def sortGas (ws : List (String × WorkspaceConfig)) : Nat :=
  ws.length + 1

/-- The outer `for (const name of names) visit(name)` loop. -/
def visitAll (ws : List (String × WorkspaceConfig)) :
    List String → TopoState → Except ResolveError TopoState
  | [], s => .ok s
  | n :: rest, s =>
    match visit ws (sortGas ws) n [] s with
    | .error e => .error e
    | .ok s' => visitAll ws rest s'

/-- `topologicalSort(workspaces, names)` from `src/dependency-resolver.ts`. -/
def topologicalSort (ws : List (String × WorkspaceConfig))
    (names : List String) : Except ResolveError (List String) :=
  match visitAll ws names ⟨[], [], []⟩ with
  | .error e => .error e
  | .ok s => .ok s.sorted

/-- `resolveExecutionOrder(config)` from `src/dependency-resolver.ts`. -/
def resolveExecutionOrder (config : TFEConfig) :
    Except ResolveError (List String) :=
  let names := workspaceNames config.workspaces
  match config.action with
  | .create => .ok names
  | .delete => .ok names
  | .apply => topologicalSort config.workspaces names
  | .destroy => (topologicalSort config.workspaces names).map List.reverse

/-- The inner `for (const dep of dependencies)` loop of
`validateDependencies`: unknown-dependency check first, then the
self-dependency check. -/
def checkWorkspaceDeps (ks : List String) (name : String) :
    List String → Except ResolveError Unit
  | [] => .ok ()
  | d :: rest =>
    if d ∉ ks then
      .error (.unknownDepConfig name d)
    else if d = name then
      .error (.selfDep name)
    else
      checkWorkspaceDeps ks name rest

/-- The `for (const [name, workspace] of Object.entries(...))` loop of
`validateDependencies`. -/
def checkAllDeps (ks : List String) :
    List (String × WorkspaceConfig) → Except ResolveError Unit
  | [] => .ok ()
  | (n, c) :: rest =>
    match checkWorkspaceDeps ks n (c.dependsOn.getD []) with
    | .error e => .error e
    | .ok _ => checkAllDeps ks rest

/-- `validateDependencies(config)` from `src/dependency-resolver.ts`: the
per-entry checks, then — for the ordered actions only — a trial resolution
whose error is caught and re-thrown wrapped. -/
def validateDependencies (config : TFEConfig) : Except ResolveError Unit :=
  match checkAllDeps (workspaceNames config.workspaces) config.workspaces with
  | .error e => .error e
  | .ok _ =>
    match config.action with
    | .apply =>
      match resolveExecutionOrder config with
      | .ok _ => .ok ()
      | .error e => .error (.wrapped e)
    | .destroy =>
      match resolveExecutionOrder config with
      | .ok _ => .ok ()
      | .error e => .error (.wrapped e)
    | _ => .ok ()

/-- Run statuses, `src/types.ts` `RunStatus`. -/
inductive RunStatus where
  | pending
  | plan_queued
  | planning
  | planned
  | cost_estimating
  | cost_estimated
  | policy_checking
  | policy_override
  | policy_soft_failed
  | policy_checked
  | confirmed
  | apply_queued
  | applying
  | applied
  | discarded
  | errored
  | canceled
  | force_canceled
deriving DecidableEq, Repr

/-- The wire string of a run status. -/
def statusText : RunStatus → String
  | .pending => "pending"
  | .plan_queued => "plan_queued"
  | .planning => "planning"
  | .planned => "planned"
  | .cost_estimating => "cost_estimating"
  | .cost_estimated => "cost_estimated"
  | .policy_checking => "policy_checking"
  | .policy_override => "policy_override"
  | .policy_soft_failed => "policy_soft_failed"
  | .policy_checked => "policy_checked"
  | .confirmed => "confirmed"
  | .apply_queued => "apply_queued"
  | .applying => "applying"
  | .applied => "applied"
  | .discarded => "discarded"
  | .errored => "errored"
  | .canceled => "canceled"
  | .force_canceled => "force_canceled"

/-- The `terminalStates` array of `waitForRun`. -/
def terminalStates : List RunStatus :=
  [.applied, .errored, .canceled, .force_canceled, .discarded]

/-- Options forwarded by `createSingleWorkspace` to
`TFEClient.createWorkspace`. -/
structure CreateWorkspaceOptions where
  autoApply : Option Bool
  terraformVersion : Option String
  executionMode : Option String
  vcs : Option VCSConfig
deriving DecidableEq, Repr

/-- The remote API as an oracle: each field gives the outcome of the
corresponding `TFEClient` HTTP call (`Except.error` models a thrown
exception, its payload the error message).  `runStatusAt runId k` is the
outcome of the `k`-th status poll of run `runId` inside `waitForRun`
(`getJson` of the run followed by the status-code check). -/
structure TFEClient where
  createWorkspaceResp :
    String → String → CreateWorkspaceOptions → Except String (String × String)
  attachVariableSetResp : String → String → Except String Unit
  createVariablesResp : String → List (String × String) → Except String Unit
  deleteWorkspaceResp : String → String → Except String Unit
  getWorkspaceResp : String → String → Except String String
  createRunResp : String → String → Bool → Bool → Except String String
  runStatusAt : String → Nat → Except String RunStatus

/-- The timeout error of `waitForRun`. -/
def timeoutMsg (runId : String) (timeout : Nat) : String :=
  "Run " ++ runId ++ " timed out after " ++ toString (timeout / 1000) ++ " seconds"

/-- The `Run failed with status: ...` error of `waitForRun`. -/
def runFailedMsg (st : RunStatus) : String :=
  "Run failed with status: " ++ statusText st

/-- The polling loop of `TFEClient.waitForRun`.  At iteration `k` the
elapsed wall-clock time is `k * 5000` ms (`pollInterval = 5000`, one sleep
per completed non-terminal iteration); the loop first checks
`elapsed > timeout`, then polls, then classifies the status. -/
def waitForRunLoop (fetch : Nat → Except String RunStatus) (runId : String)
    (timeout : Nat) (k : Nat) : Except String RunStatus :=
  if timeout < k * 5000 then
    .error (timeoutMsg runId timeout)
  else
    match fetch k with
    | .error e => .error e
    | .ok st =>
      if st ∈ terminalStates then
        if st = .errored then .error (runFailedMsg st) else .ok st
      else
        waitForRunLoop fetch runId timeout (k + 1)
termination_by timeout / 5000 + 1 - k
decreasing_by
  have hk : k * 5000 ≤ timeout := Nat.le_of_not_lt (by assumption)
  have hk' : k ≤ timeout / 5000 :=
    (Nat.le_div_iff_mul_le (by omega)).mpr hk
  omega

/-- The default `timeout` argument of `waitForRun`: 30 minutes. -/
def defaultRunTimeout : Nat := 1800000

/-- `TFEClient.waitForRun(runId, timeout)`. -/
def TFEClient.waitForRun (c : TFEClient) (runId : String) (timeout : Nat) :
    Except String RunStatus :=
  waitForRunLoop (c.runStatusAt runId) runId timeout 0

/-- `WorkspaceOperationResult` from `workspace-manager.ts`. -/
structure WorkspaceOperationResult where
  workspace : String
  success : Bool
  workspaceId : Option String := none
  workspaceUrl : Option String := none
  error : Option String := none
deriving DecidableEq, Repr

/-- `WorkspaceManager.createSingleWorkspace`: create the workspace, then —
if a variable-set id is configured (JS truthiness: a non-empty string) —
attach it, then — if a non-empty variables object is configured — create
the variables; any thrown error is caught into a failure result. -/
def createSingleWorkspace (c : TFEClient) (org : String) (name : String)
    (config : WorkspaceConfig) : WorkspaceOperationResult :=
  let attempt : Except String (String × String) := do
    let (workspaceId, workspaceUrl) ← c.createWorkspaceResp org name
      ⟨config.autoApply, config.terraformVersion, config.executionMode, config.vcs⟩
    match config.variableSetId with
    | some vsId => if vsId = "" then pure () else c.attachVariableSetResp vsId workspaceId
    | none => pure ()
    match config.vars with
    | some kvs => if kvs.length > 0 then c.createVariablesResp workspaceId kvs else pure ()
    | none => pure ()
    pure (workspaceId, workspaceUrl)
  match attempt with
  | .ok (workspaceId, workspaceUrl) =>
    { workspace := name, success := true,
      workspaceId := some workspaceId, workspaceUrl := some workspaceUrl }
  | .error msg =>
    { workspace := name, success := false, error := some msg }

/-- `config.workspaces[name]` as read by `createWorkspaces`; the names it is
applied to always come from the configuration's keys, so the default is
never reached. -/
def lookupConfig (config : TFEConfig) (name : String) : WorkspaceConfig :=
  (config.workspaces.lookup name).getD {}

/-- `WorkspaceManager.createWorkspaces`: all workspaces are dispatched
concurrently and `Promise.all` collects the results in dispatch order. -/
def createWorkspaces (c : TFEClient) (org : String) (config : TFEConfig)
    (names : List String) : List WorkspaceOperationResult :=
  names.map (fun name => createSingleWorkspace c org name (lookupConfig config name))

/-- `WorkspaceManager.deleteSingleWorkspace`. -/
def deleteSingleWorkspace (c : TFEClient) (org : String) (name : String) :
    WorkspaceOperationResult :=
  match c.deleteWorkspaceResp org name with
  | .ok _ => { workspace := name, success := true }
  | .error msg => { workspace := name, success := false, error := some msg }

/-- `WorkspaceManager.deleteWorkspaces`: parallel dispatch, results in
dispatch order. -/
def deleteWorkspaces (c : TFEClient) (org : String) (names : List String) :
    List WorkspaceOperationResult :=
  names.map (deleteSingleWorkspace c org)

/-- `WorkspaceManager.applySingleWorkspace`: look the workspace up, create a
non-destroy auto-applying run, wait for it; any thrown error is caught into
a failure result. -/
def applySingleWorkspace (c : TFEClient) (org : String) (name : String) :
    WorkspaceOperationResult :=
  let attempt : Except String String := do
    let workspaceId ← c.getWorkspaceResp org name
    let runId ← c.createRunResp workspaceId "Apply triggered by GitHub Actions" false true
    let _ ← c.waitForRun runId defaultRunTimeout
    pure workspaceId
  match attempt with
  | .ok workspaceId =>
    { workspace := name, success := true, workspaceId := some workspaceId }
  | .error msg =>
    { workspace := name, success := false, error := some msg }

/-- `WorkspaceManager.applyWorkspaces`: strictly sequential; on the first
failure the loop records the failing result and breaks. -/
def applyWorkspaces (c : TFEClient) (org : String) :
    List String → List WorkspaceOperationResult
  | [] => []
  | name :: rest =>
    let r := applySingleWorkspace c org name
    if r.success then r :: applyWorkspaces c org rest else [r]

/-- `WorkspaceManager.destroySingleWorkspace`: look the workspace up, create
a destroy run, wait for it; any thrown error is caught into a failure
result. -/
def destroySingleWorkspace (c : TFEClient) (org : String) (name : String) :
    WorkspaceOperationResult :=
  let attempt : Except String String := do
    let workspaceId ← c.getWorkspaceResp org name
    let runId ← c.createRunResp workspaceId "Destroy triggered by GitHub Actions" true true
    let _ ← c.waitForRun runId defaultRunTimeout
    pure workspaceId
  match attempt with
  | .ok workspaceId =>
    { workspace := name, success := true, workspaceId := some workspaceId }
  | .error msg =>
    { workspace := name, success := false, error := some msg }

/-- `WorkspaceManager.destroyWorkspaces`: strictly sequential; a failure is
recorded (with a warning) and the loop continues. -/
def destroyWorkspaces (c : TFEClient) (org : String) :
    List String → List WorkspaceOperationResult
  | [] => []
  | name :: rest =>
    destroySingleWorkspace c org name :: destroyWorkspaces c org rest

/-- `WorkspaceManager.execute`: validate, resolve the order, dispatch to the
strategy of the configured action. -/
def execute (c : TFEClient) (org : String) (config : TFEConfig) :
    Except ResolveError (List WorkspaceOperationResult) :=
  match validateDependencies config with
  | .error e => .error e
  | .ok _ =>
    match resolveExecutionOrder config with
    | .error e => .error e
    | .ok names =>
      match config.action with
      | .create => .ok (createWorkspaces c org config names)
      | .delete => .ok (deleteWorkspaces c org names)
      | .apply => .ok (applyWorkspaces c org names)
      | .destroy => .ok (destroyWorkspaces c org names)

/-! ## List helpers -/

/-- Index of the first occurrence of `a` in a list (the length when `a` is
absent); for duplicate-free lists this is the index of `a`. -/
def posOf (a : String) : List String → Nat
  | [] => 0
  | b :: l => if b = a then 0 else posOf a l + 1

theorem posOf_lt_length {a : String} : ∀ {l : List String}, a ∈ l → posOf a l < l.length := by
  intro l h
  induction l with
  | nil => cases h
  | cons b l ih =>
    by_cases hb : b = a
    · simp [posOf, hb]
    · have : a ∈ l := by
        cases h with
        | head => exact absurd rfl hb
        | tail _ h => exact h
      simp [posOf, hb, Nat.succ_lt_succ (ih this)]

theorem posOf_append_left {a : String} : ∀ {l l₂ : List String},
    a ∈ l → posOf a (l ++ l₂) = posOf a l := by
  intro l l₂ h
  induction l with
  | nil => cases h
  | cons b l ih =>
    by_cases hb : b = a
    · simp [posOf, hb]
    · have : a ∈ l := by
        cases h with
        | head => exact absurd rfl hb
        | tail _ h => exact h
      simp [posOf, hb, ih this]

theorem posOf_append_right {a : String} : ∀ {l l₂ : List String},
    a ∉ l → posOf a (l ++ l₂) = l.length + posOf a l₂ := by
  intro l l₂ h
  induction l with
  | nil => simp
  | cons b l ih =>
    have hb : b ≠ a := fun hba => h (hba ▸ List.mem_cons_self b l)
    have h' : a ∉ l := fun ha => h (List.mem_cons_of_mem b ha)
    simp [posOf, hb, ih h']
    omega

theorem nodup_snoc {a : String} : ∀ {l : List String},
    l.Nodup → a ∉ l → (l ++ [a]).Nodup := by
  intro l hl ha
  induction l with
  | nil => simp
  | cons b l ih =>
    rw [List.cons_append, List.nodup_cons]
    refine ⟨?_, ih (List.nodup_cons.mp hl).2 fun h => ha (List.mem_cons_of_mem b h)⟩
    intro hb
    rcases List.mem_append.mp hb with hb | hb
    · exact (List.nodup_cons.mp hl).1 hb
    · exact ha (List.mem_singleton.mp hb ▸ List.mem_cons_self b l)

/-! ## Lookup facts -/

theorem lookup_isSome_iff {ws : List (String × WorkspaceConfig)} {n : String} :
    (ws.lookup n).isSome ↔ n ∈ workspaceNames ws := by
  induction ws with
  | nil => simp [workspaceNames]
  | cons p rest ih =>
    obtain ⟨k, c⟩ := p
    by_cases hk : n = k
    · simp [List.lookup, workspaceNames, hk]
    · have : (n == k) = false := beq_false_of_ne hk
      simp [List.lookup, workspaceNames, this, ih, hk]

theorem mem_of_lookup_eq_some {ws : List (String × WorkspaceConfig)}
    {n : String} {c : WorkspaceConfig} (h : ws.lookup n = some c) : (n, c) ∈ ws := by
  induction ws with
  | nil => cases h
  | cons p rest ih =>
    obtain ⟨k, b⟩ := p
    by_cases hk : n = k
    · have : (n == k) = true := beq_iff_eq.mpr hk
      simp [List.lookup, this] at h
      subst hk; subst h; exact List.mem_cons_self _ _
    · have : (n == k) = false := beq_false_of_ne hk
      simp [List.lookup, this] at h
      exact List.mem_cons_of_mem _ (ih h)

/-! ## Invariants of the depth-first traversal -/

/-- A list is a topological order for `ws` when every declared dependency of
every element occurs in it strictly earlier. -/
def orderedByDeps (ws : List (String × WorkspaceConfig)) (l : List String) : Prop :=
  ∀ n ∈ l, ∀ d ∈ getDeps ws n, d ∈ l ∧ posOf d l < posOf n l

/-- The invariant maintained by `visit` on its state: `sorted` is
duplicate-free, coincides with the `visited` set, contains only workspace
names, and is topologically ordered. -/
def StateOk (ws : List (String × WorkspaceConfig)) (s : TopoState) : Prop :=
  s.sorted.Nodup ∧
  (∀ x, x ∈ s.visited ↔ x ∈ s.sorted) ∧
  (∀ x ∈ s.sorted, x ∈ workspaceNames ws) ∧
  orderedByDeps ws s.sorted

theorem orderedByDeps_snoc {ws : List (String × WorkspaceConfig)}
    {l : List String} {name : String}
    (h : orderedByDeps ws l) (hn : name ∉ l)
    (hd : ∀ d ∈ getDeps ws name, d ∈ l) :
    orderedByDeps ws (l ++ [name]) := by
  intro n hmem d hdep
  rcases List.mem_append.mp hmem with hmem | hmem
  · obtain ⟨hdl, hpos⟩ := h n hmem d hdep
    refine ⟨List.mem_append_left _ hdl, ?_⟩
    rw [posOf_append_left hdl, posOf_append_left hmem]
    exact hpos
  · have hn' : n = name := List.mem_singleton.mp hmem
    subst hn'
    have hdl := hd d hdep
    refine ⟨List.mem_append_left _ hdl, ?_⟩
    rw [posOf_append_left hdl, posOf_append_right hn]
    have := posOf_lt_length hdl
    simp [posOf]
    omega

theorem visitList_visiting_pres {ws : List (String × WorkspaceConfig)}
    {visitF : String → TopoState → Except ResolveError TopoState} {name : String}
    (Hpres : ∀ d st st', visitF d st = .ok st' → st'.visiting = st.visiting) :
    ∀ {deps : List String} {s s' : TopoState},
      visitList ws visitF name deps s = .ok s' → s'.visiting = s.visiting := by
  intro deps
  induction deps with
  | nil => intro s s' h; cases h; rfl
  | cons dep rest ih =>
    intro s s' h
    rw [visitList] at h
    split at h
    · cases h
    · split at h
      · cases h
      · rename_i st' hst'
        rw [ih h, Hpres dep s st' hst']

theorem visit_visiting_pres {ws : List (String × WorkspaceConfig)} :
    ∀ {fuel : Nat} {name : String} {path : List String} {s s' : TopoState},
      visit ws fuel name path s = .ok s' → s'.visiting = s.visiting := by
  intro fuel
  induction fuel with
  | zero => intro name path s s' h; cases h
  | succ fuel ih =>
    intro name path s s' h
    rw [visit] at h
    split at h
    · cases h
    · split at h
      · cases h; rfl
      · split at h
        · cases h
        · rename_i s2 hs2
          cases h
          have hvl : s2.visiting = name :: s.visiting :=
            visitList_visiting_pres (fun d st st' hd => ih hd) hs2
          simp [hvl]

theorem visitList_ok_spec {ws : List (String × WorkspaceConfig)}
    {visitF : String → TopoState → Except ResolveError TopoState} {name : String}
    (Hok : ∀ d st st', (ws.lookup d).isSome → StateOk ws st → visitF d st = .ok st' →
      StateOk ws st' ∧ st'.visiting = st.visiting ∧ (∃ t, st'.sorted = st.sorted ++ t) ∧
      d ∈ st'.sorted ∧ (∀ x ∈ st'.sorted, x ∈ st.sorted ∨ x ∉ st.visiting)) :
    ∀ {deps : List String} {s s' : TopoState},
      StateOk ws s → visitList ws visitF name deps s = .ok s' →
      StateOk ws s' ∧ s'.visiting = s.visiting ∧ (∃ t, s'.sorted = s.sorted ++ t) ∧
      (∀ d ∈ deps, d ∈ s'.sorted) ∧ (∀ x ∈ s'.sorted, x ∈ s.sorted ∨ x ∉ s.visiting) := by
  intro deps
  induction deps with
  | nil =>
    intro s s' hs h
    cases h
    exact ⟨hs, rfl, ⟨[], by simp⟩, by simp, fun x hx => Or.inl hx⟩
  | cons dep rest ih =>
    intro s s' hs h
    rw [visitList] at h
    split at h
    · cases h
    · rename_i hlk
      have hsome : (ws.lookup dep).isSome := by
        cases hopt : ws.lookup dep <;> simp [hopt] at hlk ⊢
      split at h
      · cases h
      · rename_i st' hst'
        obtain ⟨hs1, hv1, ⟨t1, ht1⟩, hd1, hnew1⟩ := Hok dep s st' hsome hs hst'
        obtain ⟨hs', hv2, ⟨t2, ht2⟩, hrest, hnew2⟩ := ih hs1 h
        refine ⟨hs', by rw [hv2, hv1], ⟨t1 ++ t2, by rw [ht2, ht1, List.append_assoc]⟩, ?_, ?_⟩
        · intro d hd
          rcases List.mem_cons.mp hd with hd | hd
          · subst hd; rw [ht2]; exact List.mem_append_left _ hd1
          · exact hrest d hd
        · intro x hx
          rcases hnew2 x hx with hx' | hx'
          · exact hnew1 x hx'
          · rw [hv1] at hx'; exact Or.inr hx'

theorem visit_ok_spec {ws : List (String × WorkspaceConfig)} :
    ∀ {fuel : Nat} {name : String} {path : List String} {s s' : TopoState},
      (ws.lookup name).isSome → StateOk ws s → visit ws fuel name path s = .ok s' →
      StateOk ws s' ∧ s'.visiting = s.visiting ∧ (∃ t, s'.sorted = s.sorted ++ t) ∧
      name ∈ s'.sorted ∧ (∀ x ∈ s'.sorted, x ∈ s.sorted ∨ x ∉ s.visiting) := by
  intro fuel
  induction fuel with
  | zero => intro name path s s' _ _ h; cases h
  | succ fuel ih =>
    intro name path s s' hsome hs h
    rw [visit] at h
    split at h
    · cases h
    · split at h
      · rename_i h1 h2
        cases h
        exact ⟨hs, rfl, ⟨[], by simp⟩, (hs.2.1 name).mp h2, fun x hx => Or.inl hx⟩
      · rename_i h1 h2
        split at h
        · cases h
        · rename_i s2 hs2
          cases h
          have hs1 : StateOk ws { s with visiting := name :: s.visiting } := hs
          obtain ⟨hs2Ok, hv2, ⟨t, ht⟩, hdeps, hnew2⟩ :=
            visitList_ok_spec (fun d st st' hsm hst hok => ih hsm hst hok) hs1 hs2
          have hv2' : s2.visiting = name :: s.visiting := hv2
          have ht' : s2.sorted = s.sorted ++ t := ht
          have hnotmem : name ∉ s2.sorted := by
            intro hmem
            rcases hnew2 name hmem with hmem' | hmem'
            · exact h2 ((hs.2.1 name).mpr hmem')
            · exact hmem' (List.mem_cons_self _ _)
          refine ⟨⟨nodup_snoc hs2Ok.1 hnotmem, ?_, ?_, orderedByDeps_snoc hs2Ok.2.2.2 hnotmem hdeps⟩,
            ?_, ⟨t ++ [name], by rw [ht', List.append_assoc]⟩,
            List.mem_append_right _ (List.mem_singleton.mpr rfl), ?_⟩
          · intro x
            simp only [List.mem_cons, List.mem_append, List.mem_singleton]
            rw [hs2Ok.2.1 x]
            tauto
          · intro x hx
            rcases List.mem_append.mp hx with hx | hx
            · exact hs2Ok.2.2.1 x hx
            · rw [List.mem_singleton.mp hx]
              exact lookup_isSome_iff.mp hsome
          · show s2.visiting.erase name = s.visiting
            rw [hv2', List.erase_cons_head]
          · intro x hx
            rcases List.mem_append.mp hx with hx | hx
            · rcases hnew2 x hx with hx' | hx'
              · exact Or.inl hx'
              · exact Or.inr fun hmem => hx' (List.mem_cons_of_mem _ hmem)
            · rw [List.mem_singleton.mp hx]
              exact Or.inr h1

theorem visitAll_spec {ws : List (String × WorkspaceConfig)} :
    ∀ {names : List String} {s s' : TopoState},
      (∀ n ∈ names, (ws.lookup n).isSome) → StateOk ws s →
      visitAll ws names s = .ok s' →
      StateOk ws s' ∧ (∃ t, s'.sorted = s.sorted ++ t) ∧ (∀ n ∈ names, n ∈ s'.sorted) := by
  intro names
  induction names with
  | nil =>
    intro s s' _ hs h
    cases h
    exact ⟨hs, ⟨[], by simp⟩, by simp⟩
  | cons n rest ih =>
    intro s s' hsome hs h
    rw [visitAll] at h
    split at h
    · cases h
    · rename_i st hst
      obtain ⟨hstOk, hv, ⟨t1, ht1⟩, hn, _⟩ :=
        visit_ok_spec (hsome n (List.mem_cons_self _ _)) hs hst
      obtain ⟨hs', ⟨t2, ht2⟩, hrest⟩ :=
        ih (fun m hm => hsome m (List.mem_cons_of_mem _ hm)) hstOk h
      refine ⟨hs', ⟨t1 ++ t2, by rw [ht2, ht1, List.append_assoc]⟩, ?_⟩
      intro m hm
      rcases List.mem_cons.mp hm with hm | hm
      · subst hm; rw [ht2]; exact List.mem_append_left _ hn
      · exact hrest m hm

theorem topologicalSort_ok {ws : List (String × WorkspaceConfig)} {l : List String}
    (h : topologicalSort ws (workspaceNames ws) = .ok l) :
    l.Nodup ∧ (∀ x, x ∈ l ↔ x ∈ workspaceNames ws) ∧ orderedByDeps ws l := by
  rw [topologicalSort] at h
  split at h
  · cases h
  · rename_i s hs
    cases h
    have hinit : StateOk ws ⟨[], [], []⟩ := by
      refine ⟨List.nodup_nil, by simp, by simp, ?_⟩
      intro n hn; cases hn
    obtain ⟨hsOk, _, hmem⟩ :=
      visitAll_spec (fun n hn => lookup_isSome_iff.mpr hn) hinit hs
    exact ⟨hsOk.1, fun x => ⟨fun hx => hsOk.2.2.1 x hx, fun hx => hmem x hx⟩, hsOk.2.2.2⟩

/-! ## Fuel sufficiency: the `outOfGas` marker is unreachable -/

theorem nodup_subset_length_le {l l' : List String}
    (h : l.Nodup) (hsub : ∀ x ∈ l, x ∈ l') : l.length ≤ l'.length := by
  calc l.length = l.toFinset.card := (List.toFinset_card_of_nodup h).symm
    _ ≤ l'.toFinset.card := Finset.card_le_card (by
        intro x hx
        rw [List.mem_toFinset] at hx ⊢
        exact hsub x hx)
    _ ≤ l'.length := List.toFinset_card_le l'

theorem visitList_no_gas {ws : List (String × WorkspaceConfig)}
    {visitF : String → TopoState → Except ResolveError TopoState}
    {name : String} {v : List String}
    (Hpres : ∀ d st st', visitF d st = .ok st' → st'.visiting = st.visiting)
    (Hgas : ∀ d st, st.visiting = v → visitF d st ≠ .error .outOfGas) :
    ∀ {deps : List String} {s : TopoState}, s.visiting = v →
      visitList ws visitF name deps s ≠ .error .outOfGas := by
  intro deps
  induction deps with
  | nil => intro s _ h; cases h
  | cons dep rest ih =>
    intro s hv h
    rw [visitList] at h
    split at h
    · cases h
    · split at h
      · rename_i e hF
        cases h
        exact Hgas dep s hv hF
      · rename_i st' hF
        exact ih (by rw [Hpres dep s st' hF]; exact hv) h

theorem visit_no_gas {ws : List (String × WorkspaceConfig)} :
    ∀ {fuel : Nat} {name : String} {path : List String} {s : TopoState},
      s.visiting.Nodup → (∀ x ∈ s.visiting, x ∈ workspaceNames ws) →
      (workspaceNames ws).length < fuel + s.visiting.length →
      visit ws fuel name path s ≠ .error .outOfGas := by
  intro fuel
  induction fuel with
  | zero =>
    intro name path s hnd hsub hlt _
    have := nodup_subset_length_le hnd hsub
    omega
  | succ fuel ih =>
    intro name path s hnd hsub hlt h
    rw [visit] at h
    split at h
    · cases h
    · split at h
      · cases h
      · rename_i h1 h2
        split at h
        · rename_i e hvl
          cases h
          by_cases hk : (ws.lookup name).isSome
          · refine visitList_no_gas (fun d st st' hok => visit_visiting_pres hok)
              (fun d st hst => ?_) rfl hvl
            refine ih (by rw [hst]; exact List.nodup_cons.mpr ⟨h1, hnd⟩) ?_ ?_
            · intro x hx
              rw [hst] at hx
              rcases List.mem_cons.mp hx with hx | hx
              · subst hx; exact lookup_isSome_iff.mp hk
              · exact hsub x hx
            · rw [hst]
              simp only [List.length_cons]
              omega
          · have hdeps : getDeps ws name = [] := by
              unfold getDeps
              cases hopt : ws.lookup name with
              | none => rfl
              | some c => rw [hopt] at hk; simp at hk
            rw [hdeps, visitList] at hvl
            cases hvl
        · cases h

theorem visitAll_no_gas {ws : List (String × WorkspaceConfig)} :
    ∀ {names : List String} {s : TopoState}, s.visiting = [] →
      visitAll ws names s ≠ .error .outOfGas := by
  intro names
  induction names with
  | nil => intro s _ h; cases h
  | cons n rest ih =>
    intro s hv h
    rw [visitAll] at h
    split at h
    · rename_i e hvis
      cases h
      refine visit_no_gas (by rw [hv]; exact List.nodup_nil)
        (by rw [hv]; intro x hx; cases hx) ?_ hvis
      rw [hv]
      simp [workspaceNames, sortGas]
    · rename_i st hvis
      exact ih (by rw [visit_visiting_pres hvis, hv]) h

theorem topologicalSort_no_gas {ws : List (String × WorkspaceConfig)}
    {names : List String} : topologicalSort ws names ≠ .error .outOfGas := by
  intro h
  rw [topologicalSort] at h
  split at h
  · rename_i e hva
    cases h
    exact visitAll_no_gas rfl hva
  · cases h

/-! ## Error classification and cycle-path shape -/

/-- All declared dependencies name existing workspaces. -/
def AllDepsDefined (ws : List (String × WorkspaceConfig)) : Prop :=
  ∀ n d, d ∈ getDeps ws n → d ∈ workspaceNames ws

theorem allDepsDefined_of_entries {ws : List (String × WorkspaceConfig)}
    (h : ∀ p ∈ ws, ∀ d ∈ p.2.dependsOn.getD [], d ∈ workspaceNames ws) :
    AllDepsDefined ws := by
  intro n d hd
  unfold getDeps at hd
  split at hd
  · rename_i c hc
    exact h (n, c) (mem_of_lookup_eq_some hc) d hd
  · cases hd

theorem visitList_err_class {ws : List (String × WorkspaceConfig)}
    {visitF : String → TopoState → Except ResolveError TopoState} {name : String}
    (Herr : ∀ d st e, visitF d st = .error e → (∃ p, e = .cycle p) ∨ e = .outOfGas) :
    ∀ {deps : List String} {s : TopoState} {e : ResolveError},
      (∀ d ∈ deps, (ws.lookup d).isSome) →
      visitList ws visitF name deps s = .error e →
      (∃ p, e = .cycle p) ∨ e = .outOfGas := by
  intro deps
  induction deps with
  | nil => intro s e _ h; cases h
  | cons dep rest ih =>
    intro s e hsome h
    rw [visitList] at h
    split at h
    · rename_i hnone
      rw [Option.isNone_iff_eq_none] at hnone
      have := hsome dep (List.mem_cons_self _ _)
      rw [hnone] at this
      cases this
    · split at h
      · rename_i e' hF
        cases h
        exact Herr dep s _ hF
      · exact ih (fun d hd => hsome d (List.mem_cons_of_mem _ hd)) h

theorem visit_err_class {ws : List (String × WorkspaceConfig)}
    (hall : AllDepsDefined ws) :
    ∀ {fuel : Nat} {name : String} {path : List String} {s : TopoState}
      {e : ResolveError},
      visit ws fuel name path s = .error e →
      (∃ p, e = .cycle p) ∨ e = .outOfGas := by
  intro fuel
  induction fuel with
  | zero =>
    intro name path s e h
    cases h
    exact Or.inr rfl
  | succ fuel ih =>
    intro name path s e h
    rw [visit] at h
    split at h
    · cases h
      exact Or.inl ⟨_, rfl⟩
    · split at h
      · cases h
      · split at h
        · rename_i e' hvl
          cases h
          exact visitList_err_class (fun d st e'' hF => ih hF)
            (fun d hd => lookup_isSome_iff.mpr (hall _ d hd)) hvl
        · cases h

theorem visitAll_err_class {ws : List (String × WorkspaceConfig)}
    (hall : AllDepsDefined ws) :
    ∀ {names : List String} {s : TopoState} {e : ResolveError},
      visitAll ws names s = .error e → (∃ p, e = .cycle p) ∨ e = .outOfGas := by
  intro names
  induction names with
  | nil => intro s e h; cases h
  | cons n rest ih =>
    intro s e h
    rw [visitAll] at h
    split at h
    · rename_i e' hvis
      cases h
      exact visit_err_class hall hvis
    · exact ih h

theorem visitList_cycle_shape {ws : List (String × WorkspaceConfig)}
    {visitF : String → TopoState → Except ResolveError TopoState}
    {name : String} {v : List String}
    (Hpres : ∀ d st st', visitF d st = .ok st' → st'.visiting = st.visiting)
    (Hshape : ∀ d st p, st.visiting = v → visitF d st = .error (.cycle p) →
      ∃ q x, p = q ++ [x] ∧ x ∈ q) :
    ∀ {deps : List String} {s : TopoState} {p : List String}, s.visiting = v →
      visitList ws visitF name deps s = .error (.cycle p) →
      ∃ q x, p = q ++ [x] ∧ x ∈ q := by
  intro deps
  induction deps with
  | nil => intro s p _ h; cases h
  | cons dep rest ih =>
    intro s p hv h
    rw [visitList] at h
    split at h
    · cases h
    · split at h
      · rename_i e' hF
        cases h
        exact Hshape dep s p hv hF
      · rename_i st' hF
        exact ih (by rw [Hpres dep s st' hF]; exact hv) h

theorem visit_cycle_shape {ws : List (String × WorkspaceConfig)} :
    ∀ {fuel : Nat} {name : String} {path : List String} {s : TopoState}
      {p : List String},
      (∀ x ∈ s.visiting, x ∈ path) →
      visit ws fuel name path s = .error (.cycle p) →
      ∃ q x, p = q ++ [x] ∧ x ∈ q := by
  intro fuel
  induction fuel with
  | zero => intro name path s p _ h; cases h
  | succ fuel ih =>
    intro name path s p hsub h
    rw [visit] at h
    split at h
    · rename_i h1
      cases h
      exact ⟨path, name, rfl, hsub name h1⟩
    · split at h
      · cases h
      · split at h
        · rename_i e' hvl
          cases h
          refine visitList_cycle_shape (fun d st st' hok => visit_visiting_pres hok)
            (fun d st p' hst hF => ih ?_ hF) rfl hvl
          intro x hx
          rw [hst] at hx
          rcases List.mem_cons.mp hx with hx | hx
          · subst hx; exact List.mem_append_right _ (List.mem_singleton.mpr rfl)
          · exact List.mem_append_left _ (hsub x hx)
        · cases h

theorem visitAll_cycle_shape {ws : List (String × WorkspaceConfig)} :
    ∀ {names : List String} {s : TopoState} {p : List String}, s.visiting = [] →
      visitAll ws names s = .error (.cycle p) → ∃ q x, p = q ++ [x] ∧ x ∈ q := by
  intro names
  induction names with
  | nil => intro s p _ h; cases h
  | cons n rest ih =>
    intro s p hv h
    rw [visitAll] at h
    split at h
    · rename_i e' hvis
      cases h
      exact visit_cycle_shape (by rw [hv]; intro x hx; cases hx) hvis
    · rename_i st hvis
      exact ih (by rw [visit_visiting_pres hvis, hv]) h

/-! ## A cyclic dependency relation admits no topological order -/

theorem orderedByDeps_no_cycle {ws : List (String × WorkspaceConfig)}
    {l : List String} (hord : orderedByDeps ws l)
    (hmem : ∀ x, x ∈ l ↔ x ∈ workspaceNames ws) :
    ∀ n, ¬ Relation.TransGen (depEdge ws) n n := by
  have aux : ∀ a c, Relation.TransGen (depEdge ws) a c → a ∈ l →
      c ∈ l ∧ posOf c l < posOf a l := by
    intro a c h
    induction h with
    | single hac =>
      intro ha
      exact hord a ha _ hac
    | tail hab hbc ih =>
      intro ha
      obtain ⟨hb, hpos⟩ := ih ha
      obtain ⟨hc, hpos'⟩ := hord _ hb _ hbc
      exact ⟨hc, Nat.lt_trans hpos' hpos⟩
  have first_edge : ∀ a c, Relation.TransGen (depEdge ws) a c →
      ∃ b, depEdge ws a b := by
    intro a c h
    induction h with
    | single hac => exact ⟨_, hac⟩
    | tail _ _ ih => exact ih
  intro n h
  obtain ⟨b, hb⟩ := first_edge n n h
  have hn : n ∈ workspaceNames ws := by
    rw [← lookup_isSome_iff]
    unfold depEdge getDeps at hb
    cases hopt : ws.lookup n with
    | none => rw [hopt] at hb; cases hb
    | some c => simp
  obtain ⟨_, hlt⟩ := aux n n h ((hmem n).mpr hn)
  omega

theorem topologicalSort_cyclic_fails {ws : List (String × WorkspaceConfig)}
    (hcyc : ∃ n, Relation.TransGen (depEdge ws) n n) :
    ∀ l, topologicalSort ws (workspaceNames ws) ≠ .ok l := by
  intro l h
  obtain ⟨_, hmem, hord⟩ := topologicalSort_ok h
  obtain ⟨n, hn⟩ := hcyc
  exact orderedByDeps_no_cycle hord hmem n hn

/-! ## Polling-loop facts -/

theorem waitForRunLoop_nonterminal {fetch : Nat → Except String RunStatus}
    {runId : String} {timeout : Nat}
    (hnt : ∀ k, ∃ st, fetch k = .ok st ∧ st ∉ terminalStates) :
    ∀ k, waitForRunLoop fetch runId timeout k = .error (timeoutMsg runId timeout) := by
  have aux : ∀ n k, timeout / 5000 + 1 - k ≤ n →
      waitForRunLoop fetch runId timeout k = .error (timeoutMsg runId timeout) := by
    intro n
    induction n with
    | zero =>
      intro k hk
      rw [waitForRunLoop]
      have ht : timeout < k * 5000 := by omega
      rw [if_pos ht]
    | succ n ihn =>
      intro k hk
      rw [waitForRunLoop]
      by_cases ht : timeout < k * 5000
      · rw [if_pos ht]
      · rw [if_neg ht]
        obtain ⟨st, hst, hterm⟩ := hnt k
        rw [hst]
        simp only [if_neg hterm]
        exact ihn (k + 1) (by omega)
  intro k
  exact aux (timeout / 5000 + 1 - k) k (Nat.le_refl _)

theorem waitForRunLoop_congr {runId : String} {timeout : Nat}
    {fetch g : Nat → Except String RunStatus}
    (hagree : ∀ j, j * 5000 ≤ timeout → g j = fetch j) :
    ∀ k, waitForRunLoop g runId timeout k = waitForRunLoop fetch runId timeout k := by
  have aux : ∀ n k, timeout / 5000 + 1 - k ≤ n →
      waitForRunLoop g runId timeout k = waitForRunLoop fetch runId timeout k := by
    intro n
    induction n with
    | zero =>
      intro k hk
      have ht : timeout < k * 5000 := by omega
      rw [waitForRunLoop, if_pos ht, waitForRunLoop, if_pos ht]
    | succ n ihn =>
      intro k hk
      by_cases ht : timeout < k * 5000
      · rw [waitForRunLoop, if_pos ht, waitForRunLoop, if_pos ht]
      · have hgk := hagree k (Nat.le_of_not_lt ht)
        rw [waitForRunLoop, if_neg ht, hgk]
        conv_rhs => rw [waitForRunLoop]
        rw [if_neg ht]
        cases hf : fetch k with
        | error e => simp only [hf]
        | ok st =>
          simp only [hf]
          by_cases hterm : st ∈ terminalStates
          · simp only [if_pos hterm]
          · simp only [if_neg hterm]
            exact ihn (k + 1) (by omega)
  intro k
  exact aux (timeout / 5000 + 1 - k) k (Nat.le_refl _)

theorem waitForRunLoop_first_terminal {fetch : Nat → Except String RunStatus}
    {runId : String} {timeout : Nat} {st : RunStatus}
    (h0 : fetch 0 = .ok st) (hterm : st ∈ terminalStates) :
    waitForRunLoop fetch runId timeout 0 =
      if st = .errored then .error (runFailedMsg st) else .ok st := by
  rw [waitForRunLoop]
  have ht : ¬ timeout < 0 * 5000 := by omega
  rw [if_neg ht, h0]
  simp only [if_pos hterm]

theorem applySingleWorkspace_run_ok {c : TFEClient} {org name wsId runId : String}
    {st : RunStatus}
    (hw : c.getWorkspaceResp org name = .ok wsId)
    (hr : c.createRunResp wsId "Apply triggered by GitHub Actions" false true = .ok runId)
    (hrun : c.waitForRun runId defaultRunTimeout = .ok st) :
    applySingleWorkspace c org name =
      { workspace := name, success := true, workspaceId := some wsId } := by
  unfold applySingleWorkspace
  simp only [hw, hr, hrun, bind, Except.bind, pure, Except.pure]

theorem destroySingleWorkspace_run_ok {c : TFEClient} {org name wsId runId : String}
    {st : RunStatus}
    (hw : c.getWorkspaceResp org name = .ok wsId)
    (hr : c.createRunResp wsId "Destroy triggered by GitHub Actions" true true = .ok runId)
    (hrun : c.waitForRun runId defaultRunTimeout = .ok st) :
    destroySingleWorkspace c org name =
      { workspace := name, success := true, workspaceId := some wsId } := by
  unfold destroySingleWorkspace
  simp only [hw, hr, hrun, bind, Except.bind, pure, Except.pure]

/-! ## Validator characterisation -/

theorem checkWorkspaceDeps_ok_iff {ks : List String} {name : String} :
    ∀ {deps : List String}, checkWorkspaceDeps ks name deps = .ok () ↔
      ∀ d ∈ deps, d ∈ ks ∧ d ≠ name := by
  intro deps
  induction deps with
  | nil => simp [checkWorkspaceDeps]
  | cons d rest ih =>
    rw [checkWorkspaceDeps]
    by_cases h1 : d ∈ ks
    · rw [if_neg (by simp [h1])]
      by_cases h2 : d = name
      · rw [if_pos h2]
        constructor
        · intro h; cases h
        · intro h; exact absurd h2 (h d (List.mem_cons_self _ _)).2
      · rw [if_neg h2]
        rw [ih]
        constructor
        · intro h e he
          rcases List.mem_cons.mp he with he | he
          · subst he; exact ⟨h1, h2⟩
          · exact h e he
        · intro h e he
          exact h e (List.mem_cons_of_mem _ he)
    · rw [if_pos (by simp [h1])]
      constructor
      · intro h; cases h
      · intro h; exact absurd (h d (List.mem_cons_self _ _)).1 h1

theorem checkAllDeps_ok_iff {ks : List String} :
    ∀ {l : List (String × WorkspaceConfig)},
      checkAllDeps ks l = .ok () ↔
      ∀ p ∈ l, ∀ d ∈ p.2.dependsOn.getD [], d ∈ ks ∧ d ≠ p.1 := by
  intro l
  induction l with
  | nil => simp [checkAllDeps]
  | cons p rest ih =>
    obtain ⟨n, c⟩ := p
    rw [checkAllDeps]
    cases hc : checkWorkspaceDeps ks n (c.dependsOn.getD []) with
    | error e =>
      constructor
      · intro h; cases h
      · intro h
        have := checkWorkspaceDeps_ok_iff.mpr (h (n, c) (List.mem_cons_self _ _))
        rw [this] at hc
        cases hc
    | ok u =>
      cases u
      rw [ih]
      constructor
      · intro h q hq
        rcases List.mem_cons.mp hq with hq | hq
        · subst hq
          exact checkWorkspaceDeps_ok_iff.mp hc
        · exact h q hq
      · intro h q hq
        exact h q (List.mem_cons_of_mem _ hq)

theorem validate_ok_checkAllDeps {config : TFEConfig}
    (h : validateDependencies config = .ok ()) :
    checkAllDeps (workspaceNames config.workspaces) config.workspaces = .ok () := by
  unfold validateDependencies at h
  split at h
  · cases h
  · rename_i u hu
    cases u
    exact hu

theorem validate_apply_resolve {ws : List (String × WorkspaceConfig)}
    (h : validateDependencies ⟨.apply, ws⟩ = .ok ()) :
    ∃ l, topologicalSort ws (workspaceNames ws) = .ok l := by
  unfold validateDependencies at h
  split at h
  · cases h
  · simp only [resolveExecutionOrder] at h
    split at h
    · rename_i l hl
      exact ⟨l, hl⟩
    · cases h

/-! ## Strategy-level helpers -/

theorem destroyWorkspaces_eq_map (c : TFEClient) (org : String) :
    ∀ names : List String,
      destroyWorkspaces c org names = names.map (destroySingleWorkspace c org) := by
  intro names
  induction names with
  | nil => rfl
  | cons n rest ih => rw [destroyWorkspaces, List.map_cons, ih]

theorem mem_applyWorkspaces {c : TFEClient} {org : String} :
    ∀ {names : List String} {r : WorkspaceOperationResult},
      r ∈ applyWorkspaces c org names → ∃ n ∈ names, r = applySingleWorkspace c org n := by
  intro names
  induction names with
  | nil => intro r h; cases h
  | cons n rest ih =>
    intro r h
    rw [applyWorkspaces] at h
    by_cases hs : (applySingleWorkspace c org n).success
    · rw [if_pos hs] at h
      rcases List.mem_cons.mp h with h | h
      · exact ⟨n, List.mem_cons_self _ _, h⟩
      · obtain ⟨m, hm, hr⟩ := ih h
        exact ⟨m, List.mem_cons_of_mem _ hm, hr⟩
    · rw [if_neg hs] at h
      rw [List.mem_singleton.mp h]
      exact ⟨n, List.mem_cons_self _ _, rfl⟩

theorem filter_fail_map {f : String → WorkspaceOperationResult} :
    ∀ {names : List String} {w : String}, names.Nodup → w ∈ names →
      (f w).success = false → (∀ n ∈ names, n ≠ w → (f n).success = true) →
      (names.map f).filter (fun r => !r.success) = [f w] := by
  intro names
  induction names with
  | nil => intro w _ hw; cases hw
  | cons n rest ih =>
    intro w hnd hw hfail hok
    rw [List.map_cons, List.filter_cons]
    rcases List.mem_cons.mp hw with hw | hw
    · subst hw
      rw [if_pos (by rw [hfail]; rfl)]
      have hrest : (rest.map f).filter (fun r => !r.success) = [] := by
        rw [List.filter_eq_nil_iff]
        intro r hr
        obtain ⟨m, hm, hfm⟩ := List.mem_map.mp hr
        have hmw : m ≠ w := by
          intro hcontra
          subst hcontra
          exact (List.nodup_cons.mp hnd).1 hm
        have := hok m (List.mem_cons_of_mem _ hm) hmw
        rw [← hfm, this]
        simp
      rw [hrest]
    · have hnw : n ≠ w := by
        intro hcontra
        subst hcontra
        exact (List.nodup_cons.mp hnd).1 hw
      have hn := hok n (List.mem_cons_self _ _) hnw
      rw [if_neg (by rw [hn]; simp)]
      exact ih (List.nodup_cons.mp hnd).2 hw hfail
        (fun m hm hmw => hok m (List.mem_cons_of_mem _ hm) hmw)

theorem topologicalSort_err_class {ws : List (String × WorkspaceConfig)}
    (hall : AllDepsDefined ws) {names : List String} {e : ResolveError}
    (h : topologicalSort ws names = .error e) :
    (∃ p, e = .cycle p) ∨ e = .outOfGas := by
  rw [topologicalSort] at h
  split at h
  · rename_i e' hva
    cases h
    exact visitAll_err_class hall hva
  · cases h

theorem topologicalSort_cycle_shape {ws : List (String × WorkspaceConfig)}
    {names p : List String}
    (h : topologicalSort ws names = .error (.cycle p)) :
    ∃ q x, p = q ++ [x] ∧ x ∈ q := by
  rw [topologicalSort] at h
  split at h
  · rename_i e' hva
    cases h
    exact visitAll_cycle_shape rfl hva
  · cases h

/-! ## Claim theorems -/

/-- C1: for every acyclic, validation-passing configuration with action
`apply` (duplicate-free workspace names, as TypeScript object keys are; a
passing `validateDependencies` subsumes acyclicity, since for ordered
actions validation performs a trial resolution), `resolveExecutionOrder`
succeeds and returns a permutation of the configuration's workspace names
in which every workspace's index strictly exceeds the index of each of its
declared dependencies. -/
theorem resolveExecutionOrder_apply_topological (config : TFEConfig)
    (hnd : (workspaceNames config.workspaces).Nodup)
    (ha : config.action = .apply)
    (hv : validateDependencies config = .ok ()) :
    ∃ l, resolveExecutionOrder config = .ok l ∧
      l.Perm (workspaceNames config.workspaces) ∧
      ∀ n ∈ l, ∀ d ∈ getDeps config.workspaces n, posOf d l < posOf n l := by
  obtain ⟨act, ws⟩ := config
  cases ha
  obtain ⟨l, hl⟩ := validate_apply_resolve hv
  obtain ⟨hlnd, hmem, hord⟩ := topologicalSort_ok hl
  refine ⟨l, hl, (List.perm_ext_iff_of_nodup hlnd hnd).mpr hmem, ?_⟩
  intro n hn d hd
  exact (hord n hn d hd).2

def cfgLinear : TFEConfig :=
  ⟨.apply, [("app", { dependsOn := some ["db", "net"] }),
            ("db", { dependsOn := some ["net"] }),
            ("net", {})]⟩

theorem resolveExecutionOrder_apply_topological_witness :
    ∃ l, resolveExecutionOrder cfgLinear = .ok l ∧
      l.Perm (workspaceNames cfgLinear.workspaces) ∧
      ∀ n ∈ l, ∀ d ∈ getDeps cfgLinear.workspaces n, posOf d l < posOf n l :=
  resolveExecutionOrder_apply_topological cfgLinear (by decide) rfl (by rfl)

/-- C2: for every validation-passing workspace set, resolution for `destroy`
returns exactly the reverse of the order resolution returns for the same
workspaces with action `apply`. -/
theorem resolveExecutionOrder_destroy_reverse (ws : List (String × WorkspaceConfig))
    (hv : validateDependencies ⟨.apply, ws⟩ = .ok ()) :
    ∃ fwd, resolveExecutionOrder ⟨.apply, ws⟩ = .ok fwd ∧
      resolveExecutionOrder ⟨.destroy, ws⟩ = .ok fwd.reverse := by
  obtain ⟨l, hl⟩ := validate_apply_resolve hv
  refine ⟨l, hl, ?_⟩
  show (topologicalSort ws (workspaceNames ws)).map List.reverse = .ok l.reverse
  rw [hl]
  rfl

theorem resolveExecutionOrder_destroy_reverse_witness :
    ∃ fwd, resolveExecutionOrder ⟨.apply, cfgLinear.workspaces⟩ = .ok fwd ∧
      resolveExecutionOrder ⟨.destroy, cfgLinear.workspaces⟩ = .ok fwd.reverse :=
  resolveExecutionOrder_destroy_reverse cfgLinear.workspaces (by rfl)

/-- C5: a configuration in which some workspace lists itself as a dependency
or lists a dependency absent from the workspace set fails validation — for
every action kind — and `execute` then fails with that same validation
error for every client: no remote call influences or observes the outcome. -/
theorem execute_validation_error (config : TFEConfig) (org : String)
    (hbad : ∃ p ∈ config.workspaces, ∃ d ∈ p.2.dependsOn.getD [],
      d = p.1 ∨ d ∉ workspaceNames config.workspaces) :
    ∃ e, validateDependencies config = .error e ∧
      ∀ c : TFEClient, execute c org config = .error e := by
  have hne : checkAllDeps (workspaceNames config.workspaces) config.workspaces ≠ .ok () := by
    intro hok
    obtain ⟨p, hp, d, hd, hbd⟩ := hbad
    obtain ⟨hdm, hdn⟩ := checkAllDeps_ok_iff.mp hok p hp d hd
    rcases hbd with hbd | hbd
    · exact hdn hbd
    · exact hbd hdm
  cases hc : checkAllDeps (workspaceNames config.workspaces) config.workspaces with
  | ok u => cases u; exact absurd hc hne
  | error e =>
    have hv : validateDependencies config = .error e := by
      unfold validateDependencies
      rw [hc]
    refine ⟨e, hv, ?_⟩
    intro c
    unfold execute
    rw [hv]

def cfgSelfDep : TFEConfig := ⟨.apply, [("a", { dependsOn := some ["a"] })]⟩

def cfgUnknownDep : TFEConfig := ⟨.delete, [("a", { dependsOn := some ["ghost"] })]⟩

theorem execute_validation_error_witness :
    (∃ e, validateDependencies cfgSelfDep = .error e ∧
      ∀ c : TFEClient, execute c "acme" cfgSelfDep = .error e) ∧
    (∃ e, validateDependencies cfgUnknownDep = .error e ∧
      ∀ c : TFEClient, execute c "acme" cfgUnknownDep = .error e) :=
  ⟨execute_validation_error cfgSelfDep "acme" (by decide),
   execute_validation_error cfgUnknownDep "acme" (by decide)⟩

def cfgCyclic : TFEConfig :=
  ⟨.apply, [("r", { dependsOn := some ["a"] }),
            ("a", { dependsOn := some ["b"] }),
            ("b", { dependsOn := some ["a"] })]⟩

/-- C6 counterexample: `cfgCyclic` declares the dependency cycle
`a -> b -> a`, every dependency exists, yet resolution reports the cycle
path `r -> a -> b -> a`, which enumerates the traversal from the DFS root
`r` — a node outside the cycle — so the reported path does not start and
end at the same node and does not start at the first repeated node. -/
theorem cycle_path_counterexample :
    depEdge cfgCyclic.workspaces "a" "b" ∧ depEdge cfgCyclic.workspaces "b" "a" ∧
    (∀ p ∈ cfgCyclic.workspaces, ∀ d ∈ p.2.dependsOn.getD [],
      d ∈ workspaceNames cfgCyclic.workspaces) ∧
    resolveExecutionOrder cfgCyclic = .error (.cycle ["r", "a", "b", "a"]) ∧
    (["r", "a", "b", "a"] : List String).head? ≠ (["r", "a", "b", "a"] : List String).getLast? := by
  refine ⟨?_, ?_, ?_, ?_, ?_⟩
  · decide
  · decide
  · decide
  · rfl
  · decide

/-- C6 (amended): for every configuration with an ordered action whose
dependency names all exist and whose dependency relation contains a cycle,
resolution fails with a cycle error; the reported path enumerates the full
depth-first traversal path from the traversal root through the repetition,
and its final node occurs earlier in the path (so the path starts and ends
at the same node exactly when the traversal root itself lies on the
cycle). -/
theorem resolveExecutionOrder_cyclic_cycle_error (config : TFEConfig)
    (ha : config.action = .apply ∨ config.action = .destroy)
    (hdef : ∀ p ∈ config.workspaces, ∀ d ∈ p.2.dependsOn.getD [],
      d ∈ workspaceNames config.workspaces)
    (hcyc : ∃ n, Relation.TransGen (depEdge config.workspaces) n n) :
    ∃ q x, resolveExecutionOrder config = .error (.cycle (q ++ [x])) ∧ x ∈ q := by
  obtain ⟨act, ws⟩ := config
  have hall : AllDepsDefined ws := allDepsDefined_of_entries hdef
  have hsort : ∃ q x,
      topologicalSort ws (workspaceNames ws) = .error (.cycle (q ++ [x])) ∧ x ∈ q := by
    cases hres : topologicalSort ws (workspaceNames ws) with
    | ok l => exact absurd hres (topologicalSort_cyclic_fails hcyc l)
    | error e =>
      rcases topologicalSort_err_class hall hres with ⟨p, hp⟩ | hgas
      · subst hp
        obtain ⟨q, x, hqx, hxq⟩ := topologicalSort_cycle_shape hres
        subst hqx
        exact ⟨q, x, rfl, hxq⟩
      · subst hgas
        exact absurd hres topologicalSort_no_gas
  obtain ⟨q, x, hq, hxq⟩ := hsort
  rcases ha with ha | ha
  · cases ha
    exact ⟨q, x, hq, hxq⟩
  · cases ha
    refine ⟨q, x, ?_, hxq⟩
    show (topologicalSort ws (workspaceNames ws)).map List.reverse = _
    rw [hq]
    rfl

theorem resolveExecutionOrder_cyclic_cycle_error_witness :
    ∃ q x, resolveExecutionOrder cfgCyclic = .error (.cycle (q ++ [x])) ∧ x ∈ q :=
  resolveExecutionOrder_cyclic_cycle_error cfgCyclic (Or.inl rfl) (by decide)
    ⟨"a", Relation.TransGen.tail
      (Relation.TransGen.single
        (show depEdge cfgCyclic.workspaces "a" "b" by decide))
      (show depEdge cfgCyclic.workspaces "b" "a" by decide)⟩

/-- C3: the apply strategy runs the plan strictly sequentially and aborts on
the first failure: if every workspace before `w` succeeds and `w`'s attempt
fails, the result list is exactly the per-workspace results up to and
including `w`, and the workspaces after `w` (quantified `post`, absent from
the right-hand side) are never attempted. -/
theorem applyWorkspaces_abort (c : TFEClient) (org : String)
    (pre : List String) (w : String) (post : List String)
    (hpre : ∀ p ∈ pre, (applySingleWorkspace c org p).success = true)
    (hw : (applySingleWorkspace c org w).success = false) :
    applyWorkspaces c org (pre ++ w :: post) =
      pre.map (applySingleWorkspace c org) ++ [applySingleWorkspace c org w] := by
  induction pre with
  | nil =>
    rw [List.nil_append, applyWorkspaces, if_neg (by rw [hw]; simp)]
    rfl
  | cons p rest ih =>
    rw [List.cons_append, applyWorkspaces,
      if_pos (hpre p (List.mem_cons_self _ _)),
      ih (fun m hm => hpre m (List.mem_cons_of_mem _ hm))]
    rfl

/-- C4: the destroy strategy attempts every workspace of the plan regardless
of failures and returns exactly one result per workspace, in plan order:
the result list is the per-workspace map over the plan. -/
theorem destroyWorkspaces_continue (c : TFEClient) (org : String)
    (names : List String) :
    destroyWorkspaces c org names = names.map (destroySingleWorkspace c org) ∧
    (destroyWorkspaces c org names).length = names.length ∧
    ∀ i : Nat, (destroyWorkspaces c org names)[i]? =
      (names[i]?).map (destroySingleWorkspace c org) := by
  refine ⟨destroyWorkspaces_eq_map c org names, ?_, ?_⟩
  · rw [destroyWorkspaces_eq_map, List.length_map]
  · intro i
    rw [destroyWorkspaces_eq_map, List.getElem?_map]

/-- A run whose first poll reports `applied` completes successfully. -/
theorem waitForRun_applied {c : TFEClient} {rid : String} {t : Nat}
    (h : c.runStatusAt rid 0 = .ok .applied) :
    c.waitForRun rid t = .ok .applied := by
  unfold TFEClient.waitForRun
  rw [waitForRunLoop_first_terminal h (by decide)]
  rfl

/-- C7: a polled run that reaches terminal status `canceled`,
`force_canceled` or `discarded` makes `waitForRun` return the run without
throwing, whereas `errored` makes it throw; consequently the apply and
destroy per-workspace attempts record `success = true` for such a run. -/
theorem waitForRun_nonerror_terminal_success
    (c c' : TFEClient) (org name runId wsId : String) (timeout timeout' : Nat)
    (st : RunStatus)
    (hst : st = .canceled ∨ st = .force_canceled ∨ st = .discarded)
    (htr : ∀ rid k, c.runStatusAt rid k = .ok st)
    (htr' : ∀ rid k, c'.runStatusAt rid k = .ok .errored)
    (hw : c.getWorkspaceResp org name = .ok wsId)
    (hr : ∀ wsid msg isD auto, c.createRunResp wsid msg isD auto = .ok runId) :
    c.waitForRun runId timeout = .ok st ∧
    c'.waitForRun runId timeout' = .error (runFailedMsg .errored) ∧
    applySingleWorkspace c org name =
      { workspace := name, success := true, workspaceId := some wsId } ∧
    destroySingleWorkspace c org name =
      { workspace := name, success := true, workspaceId := some wsId } := by
  have hterm : st ∈ terminalStates := by
    rcases hst with h | h | h <;> subst h <;> decide
  have hne : ¬ st = .errored := by
    rcases hst with h | h | h <;> subst h <;> decide
  have hwait : ∀ t, c.waitForRun runId t = .ok st := by
    intro t
    unfold TFEClient.waitForRun
    rw [waitForRunLoop_first_terminal (htr runId 0) hterm, if_neg hne]
  refine ⟨hwait timeout, ?_, ?_, ?_⟩
  · unfold TFEClient.waitForRun
    rw [waitForRunLoop_first_terminal (htr' runId 0) (by decide), if_pos rfl]
  · exact applySingleWorkspace_run_ok hw (hr wsId _ false true) (hwait _)
  · exact destroySingleWorkspace_run_ok hw (hr wsId _ true true) (hwait _)

def clientOk : TFEClient :=
  { createWorkspaceResp := fun _ name _ => .ok ("ws-" ++ name, "https://tfe.local/" ++ name),
    attachVariableSetResp := fun _ _ => .ok (),
    createVariablesResp := fun _ _ => .ok (),
    deleteWorkspaceResp := fun _ _ => .ok (),
    getWorkspaceResp := fun _ name => .ok ("ws-" ++ name),
    createRunResp := fun _ _ _ _ => .ok "run-1",
    runStatusAt := fun _ _ => .ok .applied }

def clientCanceled : TFEClient :=
  { clientOk with runStatusAt := fun _ _ => .ok .canceled }

def clientErrored : TFEClient :=
  { clientOk with runStatusAt := fun _ _ => .ok .errored }

theorem waitForRun_nonerror_terminal_success_witness :
    clientCanceled.waitForRun "run-1" 1800000 = .ok .canceled ∧
    clientErrored.waitForRun "run-1" 1800000 = .error (runFailedMsg .errored) ∧
    applySingleWorkspace clientCanceled "acme" "app" =
      { workspace := "app", success := true, workspaceId := some "ws-app" } ∧
    destroySingleWorkspace clientCanceled "acme" "app" =
      { workspace := "app", success := true, workspaceId := some "ws-app" } :=
  waitForRun_nonerror_terminal_success clientCanceled clientErrored "acme" "app"
    "run-1" "ws-app" 1800000 1800000 .canceled (Or.inl rfl)
    (fun _ _ => rfl) (fun _ _ => rfl) rfl (fun _ _ _ _ => rfl)

/-- C8: a run that never reports a terminal status makes `waitForRun` fail
with the timeout error naming the run id; the loop's outcome depends only on
the polls at indices `j` with `j * 5000 ≤ timeout` — there are
`timeout / 5000 + 1` of those, at most `ceil(timeout / 5000) + 1` — the
poll interval is the fixed 5000 ms of the loop, and the default timeout is
30 minutes (1800000 ms).  The error carries no run value: no partial result
is returned. -/
theorem waitForRun_timeout (c : TFEClient) (runId : String) (timeout : Nat)
    (hnt : ∀ k, ∃ st, c.runStatusAt runId k = .ok st ∧ st ∉ terminalStates) :
    c.waitForRun runId timeout = .error (timeoutMsg runId timeout) ∧
    timeoutMsg runId timeout =
      "Run " ++ runId ++ " timed out after " ++ toString (timeout / 1000) ++ " seconds" ∧
    (∀ g : Nat → Except String RunStatus,
      (∀ j, j * 5000 ≤ timeout → g j = c.runStatusAt runId j) →
      waitForRunLoop g runId timeout 0 = c.waitForRun runId timeout) ∧
    timeout / 5000 + 1 ≤ (timeout + 4999) / 5000 + 1 ∧
    defaultRunTimeout = 1800000 := by
  refine ⟨waitForRunLoop_nonterminal hnt 0, rfl, ?_, by omega, rfl⟩
  intro g hg
  exact waitForRunLoop_congr hg 0

def clientPending : TFEClient :=
  { clientOk with runStatusAt := fun _ _ => .ok .pending }

theorem waitForRun_timeout_witness :
    clientPending.waitForRun "run-1" 1800000 = .error (timeoutMsg "run-1" 1800000) ∧
    timeoutMsg "run-1" 1800000 =
      "Run " ++ "run-1" ++ " timed out after " ++ toString (1800000 / 1000) ++ " seconds" ∧
    (∀ g : Nat → Except String RunStatus,
      (∀ j, j * 5000 ≤ 1800000 → g j = clientPending.runStatusAt "run-1" j) →
      waitForRunLoop g "run-1" 1800000 0 = clientPending.waitForRun "run-1" 1800000) ∧
    1800000 / 5000 + 1 ≤ (1800000 + 4999) / 5000 + 1 ∧
    defaultRunTimeout = 1800000 :=
  waitForRun_timeout clientPending "run-1" 1800000
    (fun k => ⟨.pending, rfl, by decide⟩)

def clientFailB : TFEClient :=
  { clientOk with
    createWorkspaceResp := fun _ name _ =>
      if name = "b" then
        .error "HTTP 422: Unprocessable Entity - Check workspace name and organization"
      else
        .ok ("ws-" ++ name, "https://tfe.local/" ++ name),
    deleteWorkspaceResp := fun _ name =>
      if name = "b" then .error "HTTP 404: Organization not found" else .ok (),
    getWorkspaceResp := fun _ name =>
      if name = "b" then .error "HTTP 404: Organization not found"
      else .ok ("ws-" ++ name) }

theorem applyWorkspaces_abort_witness :
    applyWorkspaces clientFailB "acme" (["a"] ++ "b" :: ["c"]) =
      ["a"].map (applySingleWorkspace clientFailB "acme") ++
        [applySingleWorkspace clientFailB "acme" "b"] :=
  applyWorkspaces_abort clientFailB "acme" ["a"] "b" ["c"]
    (fun p hp => by
      have hp' : p = "a" := by simpa using hp
      subst hp'
      rw [applySingleWorkspace_run_ok rfl rfl (waitForRun_applied rfl)])
    (by rfl)

/-- C9: for the create and delete strategies the result list is the
per-workspace map over the dispatched names — exactly one entry per
workspace, in dispatch order — and when exactly one workspace fails, the
failure set is exactly that workspace's single entry, every other entry
being unaffected. -/
theorem parallel_isolation (c : TFEClient) (org : String) (config : TFEConfig)
    (names : List String) (w : String)
    (hnd : names.Nodup) (hw : w ∈ names)
    (hcf : (createSingleWorkspace c org w (lookupConfig config w)).success = false)
    (hco : ∀ n ∈ names, n ≠ w →
      (createSingleWorkspace c org n (lookupConfig config n)).success = true)
    (hdf : (deleteSingleWorkspace c org w).success = false)
    (hdo : ∀ n ∈ names, n ≠ w → (deleteSingleWorkspace c org n).success = true) :
    createWorkspaces c org config names =
      names.map (fun n => createSingleWorkspace c org n (lookupConfig config n)) ∧
    (createWorkspaces c org config names).length = names.length ∧
    (createWorkspaces c org config names).filter (fun r => !r.success) =
      [createSingleWorkspace c org w (lookupConfig config w)] ∧
    deleteWorkspaces c org names = names.map (deleteSingleWorkspace c org) ∧
    (deleteWorkspaces c org names).length = names.length ∧
    (deleteWorkspaces c org names).filter (fun r => !r.success) =
      [deleteSingleWorkspace c org w] := by
  refine ⟨rfl, ?_, ?_, rfl, ?_, ?_⟩
  · rw [createWorkspaces, List.length_map]
  · exact filter_fail_map hnd hw hcf hco
  · rw [deleteWorkspaces, List.length_map]
  · exact filter_fail_map hnd hw hdf hdo

def cfgThree : TFEConfig := ⟨.create, [("a", {}), ("b", {}), ("c", {})]⟩

theorem parallel_isolation_witness :
    createWorkspaces clientFailB "acme" cfgThree ["a", "b", "c"] =
      ["a", "b", "c"].map
        (fun n => createSingleWorkspace clientFailB "acme" n (lookupConfig cfgThree n)) ∧
    (createWorkspaces clientFailB "acme" cfgThree ["a", "b", "c"]).length = 3 ∧
    (createWorkspaces clientFailB "acme" cfgThree ["a", "b", "c"]).filter
        (fun r => !r.success) =
      [createSingleWorkspace clientFailB "acme" "b" (lookupConfig cfgThree "b")] ∧
    deleteWorkspaces clientFailB "acme" ["a", "b", "c"] =
      ["a", "b", "c"].map (deleteSingleWorkspace clientFailB "acme") ∧
    (deleteWorkspaces clientFailB "acme" ["a", "b", "c"]).length = 3 ∧
    (deleteWorkspaces clientFailB "acme" ["a", "b", "c"]).filter
        (fun r => !r.success) =
      [deleteSingleWorkspace clientFailB "acme" "b"] :=
  parallel_isolation clientFailB "acme" cfgThree ["a", "b", "c"] "b"
    (by decide) (by decide) (by rfl) (by decide) (by rfl) (by decide)


theorem createSingleWorkspace_shape (c : TFEClient) (org name : String)
    (cfg : WorkspaceConfig) :
    ((createSingleWorkspace c org name cfg).success = false →
      (createSingleWorkspace c org name cfg).error.isSome ∧
      (createSingleWorkspace c org name cfg).workspaceId = none ∧
      (createSingleWorkspace c org name cfg).workspaceUrl = none) ∧
    ((createSingleWorkspace c org name cfg).success = true →
      (createSingleWorkspace c org name cfg).error = none) := by
  unfold createSingleWorkspace
  cases hatt : (do
    let (workspaceId, workspaceUrl) ← c.createWorkspaceResp org name
      ⟨cfg.autoApply, cfg.terraformVersion, cfg.executionMode, cfg.vcs⟩
    match cfg.variableSetId with
    | some vsId => if vsId = "" then pure () else c.attachVariableSetResp vsId workspaceId
    | none => pure ()
    match cfg.vars with
    | some kvs => if kvs.length > 0 then c.createVariablesResp workspaceId kvs else pure ()
    | none => pure ()
    pure (workspaceId, workspaceUrl) : Except String (String × String)) with
  | error m => simp [hatt]
  | ok v => simp [hatt]

theorem deleteSingleWorkspace_shape (c : TFEClient) (org name : String) :
    ((deleteSingleWorkspace c org name).success = false →
      (deleteSingleWorkspace c org name).error.isSome ∧
      (deleteSingleWorkspace c org name).workspaceId = none ∧
      (deleteSingleWorkspace c org name).workspaceUrl = none) ∧
    ((deleteSingleWorkspace c org name).success = true →
      (deleteSingleWorkspace c org name).error = none) := by
  unfold deleteSingleWorkspace
  cases hatt : c.deleteWorkspaceResp org name with
  | error m => simp [hatt]
  | ok v => simp [hatt]

theorem applySingleWorkspace_shape (c : TFEClient) (org name : String) :
    ((applySingleWorkspace c org name).success = false →
      (applySingleWorkspace c org name).error.isSome ∧
      (applySingleWorkspace c org name).workspaceId = none ∧
      (applySingleWorkspace c org name).workspaceUrl = none) ∧
    ((applySingleWorkspace c org name).success = true →
      (applySingleWorkspace c org name).error = none) := by
  unfold applySingleWorkspace
  cases hatt : (do
    let workspaceId ← c.getWorkspaceResp org name
    let runId ← c.createRunResp workspaceId "Apply triggered by GitHub Actions" false true
    let _ ← c.waitForRun runId defaultRunTimeout
    pure workspaceId : Except String String) with
  | error m => simp [hatt]
  | ok v => simp [hatt]

theorem destroySingleWorkspace_shape (c : TFEClient) (org name : String) :
    ((destroySingleWorkspace c org name).success = false →
      (destroySingleWorkspace c org name).error.isSome ∧
      (destroySingleWorkspace c org name).workspaceId = none ∧
      (destroySingleWorkspace c org name).workspaceUrl = none) ∧
    ((destroySingleWorkspace c org name).success = true →
      (destroySingleWorkspace c org name).error = none) := by
  unfold destroySingleWorkspace
  cases hatt : (do
    let workspaceId ← c.getWorkspaceResp org name
    let runId ← c.createRunResp workspaceId "Destroy triggered by GitHub Actions" true true
    let _ ← c.waitForRun runId defaultRunTimeout
    pure workspaceId : Except String String) with
  | error m => simp [hatt]
  | ok v => simp [hatt]

/-- C10: every result produced by any of the four strategies has the error
message set and the remote identifier and URL absent when it records a
failure — even when the remote workspace had been created before a later
step (variable-set attachment, variable creation) failed — and has no error
message when it records a success. -/
theorem operationResult_shape (c : TFEClient) (org : String)
    (config : TFEConfig) (names : List String) :
    (∀ r ∈ createWorkspaces c org config names,
      (r.success = false →
        r.error.isSome ∧ r.workspaceId = none ∧ r.workspaceUrl = none) ∧
      (r.success = true → r.error = none)) ∧
    (∀ r ∈ deleteWorkspaces c org names,
      (r.success = false →
        r.error.isSome ∧ r.workspaceId = none ∧ r.workspaceUrl = none) ∧
      (r.success = true → r.error = none)) ∧
    (∀ r ∈ applyWorkspaces c org names,
      (r.success = false →
        r.error.isSome ∧ r.workspaceId = none ∧ r.workspaceUrl = none) ∧
      (r.success = true → r.error = none)) ∧
    (∀ r ∈ destroyWorkspaces c org names,
      (r.success = false →
        r.error.isSome ∧ r.workspaceId = none ∧ r.workspaceUrl = none) ∧
      (r.success = true → r.error = none)) := by
  refine ⟨?_, ?_, ?_, ?_⟩
  · intro r hr
    obtain ⟨n, _, hn⟩ := List.mem_map.mp hr
    rw [← hn]
    exact createSingleWorkspace_shape c org n (lookupConfig config n)
  · intro r hr
    obtain ⟨n, _, hn⟩ := List.mem_map.mp hr
    rw [← hn]
    exact deleteSingleWorkspace_shape c org n
  · intro r hr
    obtain ⟨n, _, hn⟩ := mem_applyWorkspaces hr
    rw [hn]
    exact applySingleWorkspace_shape c org n
  · intro r hr
    rw [destroyWorkspaces_eq_map] at hr
    obtain ⟨n, _, hn⟩ := List.mem_map.mp hr
    rw [← hn]
    exact destroySingleWorkspace_shape c org n
